import Mathlib

/-!
Shallow embedding of the chronological hierarchical clustering routine
`hierarchical_chronological_clustering` from
`time_series_clustering.py`, together with proofs of the properties
stated in the specification of the clustering engine.

Modelling conventions:
* a data matrix is a list of rows, each row a list of rationals
  (exact rational arithmetic in place of IEEE floating point; the
  squared `pdist` distance is the exact squared Euclidean distance);
* a cluster is the list of original period indices it contains,
  exactly as in the Python list-of-lists representation;
* the running minimum of the scan over adjacent pairs is an
  `Option (index, value)`; `none` corresponds to the initial state
  `min_dissimilarity = inf`, `merge_idx = (-1, -1)`;
* the `while len(clusters) > n_reduced` loop is run on a fuel argument
  instantiated with the initial number of clusters, which bounds the
  number of iterations because every pass removes exactly one entry
  from the cluster list (`mergeLoop_add_fuel` shows the result is
  unchanged by any additional fuel).
-/

namespace TSC

/-- A feature vector: one row of the data matrix. -/
abbrev Vec := List ℚ

/-- A cluster: the list of original period indices it contains. -/
abbrev Cluster := List ℕ

/-- Componentwise addition of two rows (numpy addition used by `np.mean`). -/
def vecAdd (v w : Vec) : Vec := List.zipWith (fun a b => a + b) v w

/-- Componentwise sum of a list of rows (the accumulation inside
`np.mean(data[cluster], axis=0)`). -/
def vecSum : List Vec → Vec
  | [] => []
  | v :: vs => vs.foldl vecAdd v

/-- `compute_centroid(cluster)`: `np.mean(data[cluster], axis=0)`, the
componentwise sum of the selected rows divided by the number of rows. -/
def compute_centroid (data : List Vec) (c : Cluster) : Vec :=
  (vecSum (c.map (fun i => data.getD i []))).map (fun x => x / (c.length : ℚ))

/-- Exact squared Euclidean distance: `pdist(np.vstack([v, w])) ** 2`. -/
def sqDist (v w : Vec) : ℚ := (List.zipWith (fun a b => (a - b) ^ 2) v w).sum

/-- `compute_dissimilarity(cluster1, cluster2)`: the Ward merge cost
`2 * size1 * size2 / (size1 + size2) * dist(centroid1, centroid2) ^ 2`. -/
def compute_dissimilarity (data : List Vec) (c1 c2 : Cluster) : ℚ :=
  2 * (c1.length : ℚ) * (c2.length : ℚ) / ((c1.length : ℚ) + (c2.length : ℚ)) *
    sqDist (compute_centroid data c1) (compute_centroid data c2)

/-- The dissimilarity of the adjacent pair `(clusters[k], clusters[k+1])`
of the current cluster sequence. -/
def adjDiss (data : List Vec) (cs : List Cluster) (k : ℕ) : ℚ :=
  compute_dissimilarity data (cs.getD k []) (cs.getD (k + 1) [])

/-- One pass of the loop body scanning for the smallest adjacent
dissimilarity.  The accumulator `none` plays the role of the initial
state `min_dissimilarity = inf`, `merge_idx = (-1, -1)`; a finite score
always beats `inf`, and an equal score does not replace the stored one
(the comparison in the source is strict). -/
def scanStep (data : List Vec) (cs : List Cluster) (acc : Option (ℕ × ℚ)) (i : ℕ) :
    Option (ℕ × ℚ) :=
  match acc with
  | none => some (i, adjDiss data cs i)
  | some (j, m) =>
      if adjDiss data cs i < m then some (i, adjDiss data cs i) else some (j, m)

/-- The scan `for i in range(len(clusters) - 1)` keeping the first strict
minimum; returns the left index of the chosen adjacent pair, or `none`
when no adjacent pair exists (`merge_idx` stays `(-1, -1)`). -/
def scanMin (data : List Vec) (cs : List Cluster) : Option ℕ :=
  ((List.range (cs.length - 1)).foldl (scanStep data cs) none).map Prod.fst

/-- One iteration of the merge loop:
`clusters[i] = clusters[i] + clusters[j]; del clusters[j]` with
`(i, j) = merge_idx` and `j = i + 1`.  When the scan found no adjacent
pair, `merge_idx` is the sentinel `(-1, -1)`: Python then doubles the
last entry in place and deletes it (index `-1` is the last position). -/
def mergeStep (data : List Vec) (cs : List Cluster) : List Cluster :=
  match scanMin data cs with
  | some i => (cs.set i (cs.getD i [] ++ cs.getD (i + 1) [])).eraseIdx (i + 1)
  | none =>
      (cs.set (cs.length - 1)
          (cs.getD (cs.length - 1) [] ++ cs.getD (cs.length - 1) [])).eraseIdx
        (cs.length - 1)

/-- `clusters = [[i] for i in range(n)]`. -/
def initClusters (n : ℕ) : List Cluster := (List.range n).map (fun i => [i])

/-- The loop `while len(clusters) > n_reduced`, run on a fuel argument. -/
def mergeLoop (data : List Vec) (n_reduced : ℕ) : ℕ → List Cluster → List Cluster
  | 0, cs => cs
  | fuel + 1, cs =>
      if n_reduced < cs.length then mergeLoop data n_reduced fuel (mergeStep data cs)
      else cs

/-- The cluster sequence left when the merge loop of
`hierarchical_chronological_clustering` terminates. -/
def finalClusters (data : List Vec) (n_reduced : ℕ) : List Cluster :=
  mergeLoop data n_reduced data.length (initClusters data.length)

/-- `hierarchical_chronological_clustering(data, n_reduced)`: returns the
pair `(cluster_centroids, cluster_weights)` of the final clusters. -/
def hierarchical_chronological_clustering (data : List Vec) (n_reduced : ℕ) :
    List Vec × List ℕ :=
  ((finalClusters data n_reduced).map (compute_centroid data),
   (finalClusters data n_reduced).map List.length)

/-- The chronological partition invariant of a cluster sequence over `n`
periods: concatenating the clusters in sequence order yields exactly the
index list `0, 1, ..., n-1` (so the clusters are non-overlapping,
gap-free, contiguous and listed in increasing chronological order), and
no cluster is empty. -/
def Chrono (n : ℕ) (cs : List Cluster) : Prop :=
  cs.flatten = List.range n ∧ ∀ c ∈ cs, c ≠ []

/-- The componentwise arithmetic mean of the original feature vectors of
the member periods of a cluster, written directly as an indexed sum over
the members (the formulation used by the specification). -/
def specMean (Dim : ℕ) (data : List Vec) (c : Cluster) : Vec :=
  (List.range Dim).map
    (fun j => (c.map (fun i => (data.getD i []).getD j 0)).sum / (c.length : ℚ))

/-- Error taxonomy of the specified engine contract. -/
inductive ClusterError
  | invalidArgument
  | dimensionMismatch
deriving DecidableEq

/-- The validating `reduce` contract described by the specification
(stated from the specification text, for comparison with the source
function): `target_count` outside `1 ≤ target_count ≤ len(periods)`
fails with `InvalidArgument` before any merge work, otherwise the
clustering result is returned. -/
def reduce_specContract (data : List Vec) (target_count : ℕ) :
    Except ClusterError (List Vec × List ℕ) :=
  if 1 ≤ target_count ∧ target_count ≤ data.length then
    Except.ok (hierarchical_chronological_clustering data target_count)
  else Except.error ClusterError.invalidArgument

/-! ### Lemmas about the scan for the minimal adjacent pair -/

/-- `List.getD` at an index below the length is `getElem`. -/
lemma getD_of_lt {α : Type _} (l : List α) (i : ℕ) (d : α) (h : i < l.length) :
    l.getD i d = l[i] := by
  simp [List.getD_eq_getElem?_getD, List.getElem?_eq_getElem h]

/-- Invariant of the left-to-right scan: after processing indices
`0, ..., m-1` (with `m ≥ 1`) the accumulator holds the first index
attaining the minimal adjacent dissimilarity among them. -/
lemma scanFold_spec (data : List Vec) (cs : List Cluster) :
    ∀ m : ℕ, 1 ≤ m →
      ∃ j d, (List.range m).foldl (scanStep data cs) none = some (j, d) ∧
        j < m ∧ d = adjDiss data cs j ∧
        (∀ k, k < m → d ≤ adjDiss data cs k) ∧
        (∀ k, k < j → d < adjDiss data cs k) := by
  intro m hm
  induction m with
  | zero => omega
  | succ m ih =>
    rcases Nat.lt_or_ge 1 (m + 1) with h1 | h1
    · have hm' : 1 ≤ m := by omega
      obtain ⟨j, d, hfold, hj, hd, hmin, hfirst⟩ := ih hm'
      rw [List.range_succ, List.foldl_append, hfold]
      by_cases hlt : adjDiss data cs m < d
      · refine ⟨m, adjDiss data cs m, by simp [scanStep, hlt], by omega, rfl, ?_, ?_⟩
        · intro k hk
          rcases Nat.lt_or_ge k m with hkm | hkm
          · exact le_of_lt (lt_of_lt_of_le hlt (hmin k hkm))
          · have : k = m := by omega
            simp [this]
        · intro k hk
          exact lt_of_lt_of_le hlt (hmin k hk)
      · refine ⟨j, d, by simp [scanStep, hlt], by omega, hd, ?_, hfirst⟩
        intro k hk
        rcases Nat.lt_or_ge k m with hkm | hkm
        · exact hmin k hkm
        · have : k = m := by omega
          subst this
          exact le_of_not_lt hlt
    · have : m = 0 := by omega
      subst this
      refine ⟨0, adjDiss data cs 0, by simp [List.range_succ, scanStep], by omega, rfl, ?_, ?_⟩
      · intro k hk
        have : k = 0 := by omega
        simp [this]
      · intro k hk
        omega

/-- With at least two clusters the scan selects the adjacent pair of
minimal dissimilarity, and among ties the leftmost one. -/
lemma scanMin_spec (data : List Vec) (cs : List Cluster) (h : 2 ≤ cs.length) :
    ∃ i, scanMin data cs = some i ∧ i + 1 < cs.length ∧
      (∀ k, k + 1 < cs.length → adjDiss data cs i ≤ adjDiss data cs k) ∧
      (∀ k, k < i → adjDiss data cs i < adjDiss data cs k) := by
  obtain ⟨j, d, hfold, hj, hd, hmin, hfirst⟩ :=
    scanFold_spec data cs (cs.length - 1) (by omega)
  refine ⟨j, by simp [scanMin, hfold], by omega, ?_, ?_⟩
  · intro k hk
    rw [← hd]
    exact hmin k (by omega)
  · intro k hk
    rw [← hd]
    exact hfirst k hk

/-- With at most one cluster there is no adjacent pair and the scan
returns the sentinel. -/
lemma scanMin_none (data : List Vec) (cs : List Cluster) (h : cs.length ≤ 1) :
    scanMin data cs = none := by
  have h0 : cs.length - 1 = 0 := by omega
  simp [scanMin, h0]

/-- Unfolding of `mergeStep` when the scan found a pair. -/
lemma mergeStep_of_some (data : List Vec) (cs : List Cluster) (i : ℕ)
    (h : scanMin data cs = some i) :
    mergeStep data cs = (cs.set i (cs.getD i [] ++ cs.getD (i + 1) [])).eraseIdx (i + 1) := by
  simp [mergeStep, h]

/-- Every iteration of the merge loop removes exactly one cluster. -/
lemma mergeStep_length (data : List Vec) (cs : List Cluster) (h : 1 ≤ cs.length) :
    (mergeStep data cs).length = cs.length - 1 := by
  rcases Nat.lt_or_ge cs.length 2 with h2 | h2
  · have h1 : cs.length = 1 := by omega
    obtain ⟨a, rfl⟩ := List.length_eq_one.mp h1
    simp [mergeStep, scanMin_none data [a] (by simp)]
  · obtain ⟨i, hsm, hi, -, -⟩ := scanMin_spec data cs h2
    rw [mergeStep_of_some data cs i hsm,
      List.length_eraseIdx_of_lt (by simpa using hi)]
    simp

/-! ### The chronological partition invariant -/

/-- Merging the adjacent pair `(i, i+1)` in place leaves the
concatenation of the cluster sequence unchanged. -/
lemma flatten_set_eraseIdx (cs : List Cluster) (i : ℕ) (h : i + 1 < cs.length) :
    ((cs.set i (cs.getD i [] ++ cs.getD (i + 1) [])).eraseIdx (i + 1)).flatten =
      cs.flatten := by
  induction cs generalizing i with
  | nil => simp at h
  | cons a t ih =>
    cases i with
    | zero =>
      cases t with
      | nil => simp at h
      | cons b t' => simp [List.eraseIdx, List.append_assoc]
    | succ k =>
      have h' : k + 1 < t.length := by
        simpa using Nat.lt_of_succ_lt_succ h
      simpa [List.eraseIdx] using ih k h'

/-- A merge never produces an empty cluster. -/
lemma mergeStep_ne_nil (data : List Vec) (cs : List Cluster) (h : 2 ≤ cs.length)
    (hne : ∀ c ∈ cs, c ≠ []) :
    ∀ c ∈ mergeStep data cs, c ≠ [] := by
  obtain ⟨i, hsm, hi, -, -⟩ := scanMin_spec data cs h
  rw [mergeStep_of_some data cs i hsm]
  intro c hc
  have hc' : c ∈ cs.set i (cs.getD i [] ++ cs.getD (i + 1) []) :=
    (List.eraseIdx_sublist _ _).subset hc
  rcases List.mem_or_eq_of_mem_set hc' with h1 | h1
  · exact hne c h1
  · have hi' : i < cs.length := by omega
    have hmem : cs.getD i [] ∈ cs := by
      rw [getD_of_lt _ _ _ hi']
      exact List.getElem_mem _
    intro habs
    rw [h1] at habs
    exact hne _ hmem (List.append_eq_nil.mp habs).1

/-- One merge step preserves the chronological partition invariant. -/
lemma chrono_mergeStep (data : List Vec) (n : ℕ) (cs : List Cluster)
    (h : 2 ≤ cs.length) (hc : Chrono n cs) :
    Chrono n (mergeStep data cs) := by
  obtain ⟨i, hsm, hi, -, -⟩ := scanMin_spec data cs h
  refine ⟨?_, mergeStep_ne_nil data cs h hc.2⟩
  rw [mergeStep_of_some data cs i hsm, flatten_set_eraseIdx cs i hi]
  exact hc.1

/-- The merge loop is the identity when the sequence is already short
enough (the loop guard fails at once). -/
lemma mergeLoop_of_le (data : List Vec) (r fuel : ℕ) (cs : List Cluster)
    (h : cs.length ≤ r) :
    mergeLoop data r fuel cs = cs := by
  cases fuel with
  | zero => rfl
  | succ f => simp [mergeLoop, Nat.not_lt.mpr h]

/-- With a positive target inside the valid range the loop stops at
exactly the requested number of clusters. -/
lemma mergeLoop_length (data : List Vec) (r : ℕ) (hr : 1 ≤ r) :
    ∀ fuel cs, r ≤ cs.length → cs.length ≤ fuel →
      (mergeLoop data r fuel cs).length = r := by
  intro fuel
  induction fuel with
  | zero =>
    intro cs h1 h2
    omega
  | succ f ih =>
    intro cs h1 h2
    by_cases hlt : r < cs.length
    · have hl := mergeStep_length data cs (by omega)
      simp only [mergeLoop, if_pos hlt]
      exact ih (mergeStep data cs) (by omega) (by omega)
    · simp only [mergeLoop, if_neg hlt]
      omega

/-- With a positive target the loop preserves the chronological
partition invariant. -/
lemma mergeLoop_chrono (data : List Vec) (n r : ℕ) (hr : 1 ≤ r) :
    ∀ fuel cs, Chrono n cs → Chrono n (mergeLoop data r fuel cs) := by
  intro fuel
  induction fuel with
  | zero => intro cs hc; exact hc
  | succ f ih =>
    intro cs hc
    by_cases hlt : r < cs.length
    · simp only [mergeLoop, if_pos hlt]
      exact ih _ (chrono_mergeStep data n cs (by omega) hc)
    · simpa only [mergeLoop, if_neg hlt] using hc

/-- With target `0` the loop erases the whole sequence: once a single
cluster is left the sentinel merge doubles it and deletes it. -/
lemma mergeLoop_zero_empty (data : List Vec) :
    ∀ fuel cs, cs.length ≤ fuel → mergeLoop data 0 fuel cs = [] := by
  intro fuel
  induction fuel with
  | zero =>
    intro cs h
    have h0 : cs = [] := List.length_eq_zero.mp (by omega)
    simp [h0, mergeLoop]
  | succ f ih =>
    intro cs h
    by_cases hlt : 0 < cs.length
    · have hl := mergeStep_length data cs (by omega)
      simp only [mergeLoop, if_pos hlt]
      exact ih _ (by omega)
    · have h0 : cs = [] := List.length_eq_zero.mp (by omega)
      simp [h0, mergeLoop]

/-- Fuel beyond the number of clusters is irrelevant: the fuel-driven
loop with fuel `len(clusters)` is the genuine `while` loop. -/
lemma mergeLoop_add_fuel (data : List Vec) (r : ℕ) :
    ∀ fuel cs, cs.length ≤ fuel →
      mergeLoop data r (fuel + 1) cs = mergeLoop data r fuel cs := by
  intro fuel
  induction fuel with
  | zero =>
    intro cs h
    have h0 : cs = [] := List.length_eq_zero.mp (by omega)
    simp [h0, mergeLoop]
  | succ f ih =>
    intro cs h
    by_cases hlt : r < cs.length
    · have hl := mergeStep_length data cs (by omega)
      simp only [mergeLoop, if_pos hlt]
      exact ih _ (by omega)
    · simp only [mergeLoop, if_neg hlt]

/-- The initial cluster sequence concatenates to `range n`. -/
lemma flatten_initClusters : ∀ n : ℕ, (initClusters n).flatten = List.range n := by
  intro n
  induction n with
  | zero => rfl
  | succ m ih =>
    rw [initClusters, List.range_succ, List.map_append, List.flatten_append]
    rw [initClusters] at ih
    rw [ih]
    simp [List.range_succ]

/-- The initial cluster sequence satisfies the invariant. -/
lemma chrono_init (n : ℕ) : Chrono n (initClusters n) := by
  refine ⟨flatten_initClusters n, ?_⟩
  intro c hc
  simp only [initClusters, List.mem_map] at hc
  obtain ⟨i, -, rfl⟩ := hc
  simp

/-- There are as many initial clusters as periods. -/
lemma initClusters_length (n : ℕ) : (initClusters n).length = n := by
  simp [initClusters]

/-- The surviving cluster sequence satisfies the invariant. -/
lemma chrono_finalClusters (data : List Vec) (r : ℕ) (hr : 1 ≤ r) :
    Chrono data.length (finalClusters data r) :=
  mergeLoop_chrono data data.length r hr data.length (initClusters data.length)
    (chrono_init data.length)

/-- In the valid range the loop returns exactly `n_reduced` clusters. -/
lemma finalClusters_length (data : List Vec) (r : ℕ) (hr : 1 ≤ r)
    (hrn : r ≤ data.length) :
    (finalClusters data r).length = r :=
  mergeLoop_length data r hr data.length (initClusters data.length)
    (by rw [initClusters_length]; exact hrn)
    (by rw [initClusters_length])

/-! ### Degenerate targets and singleton centroids -/

/-- The centroid of a singleton cluster is the corresponding input row. -/
lemma centroid_singleton (data : List Vec) (i : ℕ) (h : i < data.length) :
    compute_centroid data [i] = data[i] := by
  simp [compute_centroid, vecSum, List.getElem?_eq_getElem h]

/-- When the requested number of clusters is at least the number of
periods the loop never runs: the output is the rows themselves with
all weights equal to one. -/
lemma hcc_of_le (data : List Vec) (r : ℕ) (h : data.length ≤ r) :
    hierarchical_chronological_clustering data r = (data, List.replicate data.length 1) := by
  have hfc : finalClusters data r = initClusters data.length :=
    mergeLoop_of_le data r data.length (initClusters data.length)
      (by rw [initClusters_length]; exact h)
  unfold hierarchical_chronological_clustering
  rw [hfc]
  refine Prod.ext ?_ ?_
  · apply List.ext_getElem
    · simp [initClusters]
    · intro k h1 h2
      simp only [initClusters, List.map_map, List.getElem_map, List.getElem_range]
      exact centroid_singleton data k h2
  · apply List.ext_getElem
    · simp [initClusters]
    · intro k h1 h2
      simp [initClusters]

/-- With `n_reduced = 0` the loop empties the sequence and the function
returns an empty pair of tables. -/
lemma hcc_zero (data : List Vec) :
    hierarchical_chronological_clustering data 0 = ([], []) := by
  have hfc : finalClusters data 0 = [] :=
    mergeLoop_zero_empty data data.length (initClusters data.length)
      (by rw [initClusters_length])
  simp [hierarchical_chronological_clustering, hfc]

/-! ### Centroids are exact componentwise means -/

/-- Folding componentwise addition over rows of a fixed length keeps
that length. -/
lemma foldl_vecAdd_length (Dim : ℕ) :
    ∀ (vs : List Vec) (acc : Vec), acc.length = Dim →
      (∀ v ∈ vs, v.length = Dim) → (vs.foldl vecAdd acc).length = Dim := by
  intro vs
  induction vs with
  | nil =>
    intro acc h _
    simpa using h
  | cons v t ih =>
    intro acc h hv
    simp only [List.foldl_cons]
    refine ih (vecAdd acc v) ?_ (fun w hw => hv w (by simp [hw]))
    have hv0 : v.length = Dim := hv v (by simp)
    simp [vecAdd, h, hv0]

/-- Entry `j` of the fold of componentwise additions is the sum of the
entries `j`. -/
lemma foldl_vecAdd_getD (Dim j : ℕ) (hj : j < Dim) :
    ∀ (vs : List Vec) (acc : Vec), acc.length = Dim →
      (∀ v ∈ vs, v.length = Dim) →
      (vs.foldl vecAdd acc).getD j 0 =
        acc.getD j 0 + (vs.map (fun v => v.getD j 0)).sum := by
  intro vs
  induction vs with
  | nil =>
    intro acc h _
    simp
  | cons v t ih =>
    intro acc h hv
    have hv0 : v.length = Dim := hv v (by simp)
    have hlen : (vecAdd acc v).length = Dim := by simp [vecAdd, h, hv0]
    simp only [List.foldl_cons, List.map_cons, List.sum_cons]
    rw [ih (vecAdd acc v) hlen (fun w hw => hv w (by simp [hw]))]
    have hadd : (vecAdd acc v).getD j 0 = acc.getD j 0 + v.getD j 0 := by
      rw [getD_of_lt _ j _ (by rw [hlen]; exact hj)]
      simp only [vecAdd]
      rw [List.getElem_zipWith]
      rw [getD_of_lt _ j _ (by rw [h]; exact hj), getD_of_lt _ j _ (by rw [hv0]; exact hj)]
    rw [hadd]
    ring

/-- The componentwise sum of a non-empty family of rows of length `Dim`
has length `Dim`. -/
lemma vecSum_length (Dim : ℕ) (rows : List Vec) (hr : rows ≠ [])
    (hlen : ∀ v ∈ rows, v.length = Dim) : (vecSum rows).length = Dim := by
  cases rows with
  | nil => exact absurd rfl hr
  | cons v t =>
    exact foldl_vecAdd_length Dim t v (hlen v (by simp))
      (fun w hw => hlen w (by simp [hw]))

/-- Entry `j` of the componentwise sum is the sum of entries `j`. -/
lemma vecSum_getD (Dim j : ℕ) (hj : j < Dim) (rows : List Vec) (hr : rows ≠ [])
    (hlen : ∀ v ∈ rows, v.length = Dim) :
    (vecSum rows).getD j 0 = (rows.map (fun v => v.getD j 0)).sum := by
  cases rows with
  | nil => exact absurd rfl hr
  | cons v t =>
    rw [vecSum]
    rw [foldl_vecAdd_getD Dim j hj t v (hlen v (by simp))
      (fun w hw => hlen w (by simp [hw]))]
    simp

/-- `compute_centroid` is exactly the componentwise arithmetic mean of
the raw member rows: the source recomputes it from the original data at
every use, so no re-averaging of intermediate centroids happens. -/
lemma compute_centroid_eq_specMean (Dim : ℕ) (data : List Vec) (c : Cluster)
    (hc : c ≠ []) (hmem : ∀ i ∈ c, i < data.length)
    (hD : ∀ row ∈ data, row.length = Dim) :
    compute_centroid data c = specMean Dim data c := by
  have hrows : ∀ v ∈ c.map (fun i => data.getD i []), v.length = Dim := by
    intro v hv
    simp only [List.mem_map] at hv
    obtain ⟨i, hi, rfl⟩ := hv
    rw [getD_of_lt _ _ _ (hmem i hi)]
    exact hD _ (List.getElem_mem _)
  have hrne : c.map (fun i => data.getD i []) ≠ [] := by simpa using hc
  have hlen : (vecSum (c.map (fun i => data.getD i []))).length = Dim :=
    vecSum_length Dim _ hrne hrows
  apply List.ext_getElem
  · simp only [compute_centroid, specMean, List.length_map, List.length_range]
    exact hlen
  · intro j h1 h2
    have hj : j < Dim := by
      simpa only [compute_centroid, List.length_map, hlen] using h1
    simp only [compute_centroid, specMean, List.getElem_map, List.getElem_range]
    congr 1
    rw [← getD_of_lt _ j 0 (by rw [hlen]; exact hj)]
    rw [vecSum_getD Dim j hj _ hrne hrows]
    rw [List.map_map]
    rfl

/-- In a sequence satisfying the invariant every member index of every
cluster is a valid row index. -/
lemma chrono_mem_lt (n : ℕ) (cs : List Cluster) (hc : Chrono n cs) :
    ∀ c ∈ cs, ∀ i ∈ c, i < n := by
  intro c hcs i hic
  have : i ∈ cs.flatten := List.mem_flatten_of_mem hcs hic
  rw [hc.1] at this
  exact List.mem_range.mp this

/-- A sequence whose concatenation is `range' a m` consists of
consecutive contiguous runs: cluster `k` is exactly the run of indices
starting where the previous clusters end. -/
lemma flatten_range'_chunks :
    ∀ (cs : List Cluster) (a m : ℕ),
      cs.flatten = List.range' a m → ∀ k, k < cs.length →
        cs.getD k [] =
          List.range' (a + ((cs.take k).flatten).length) (cs.getD k []).length := by
  intro cs
  induction cs with
  | nil =>
    intro a m h k hk
    simp at hk
  | cons c t ih =>
    intro a m h k hk
    have hcm : c.length ≤ m := by
      have hlen := congrArg List.length h
      simp only [List.flatten_cons, List.length_append, List.length_range'] at hlen
      omega
    have hsplit : List.range' a m =
        List.range' a c.length ++ List.range' (a + c.length) (m - c.length) := by
      rw [List.range'_append_1]
      congr 1
      omega
    rw [hsplit] at h
    simp only [List.flatten_cons] at h
    obtain ⟨hcr, htr⟩ := List.append_inj h (by simp)
    cases k with
    | zero =>
      simpa using hcr
    | succ k' =>
      have hk' : k' < t.length := by simpa using Nat.lt_of_succ_lt_succ hk
      have hrec := ih (a + c.length) (m - c.length) htr k' hk'
      simp only [List.getD_cons_succ, List.take_succ_cons, List.flatten_cons,
        List.length_append]
      rw [← Nat.add_assoc]
      exact hrec

/-! ### Claim theorems -/

/-- C1: for every input matrix of `n` period vectors (`n ≥ 1`) and every
`target_count` with `1 ≤ target_count ≤ n`, the weights returned by
`hierarchical_chronological_clustering` are positive integers whose sum
equals exactly `n`. -/
theorem weight_conservation (data : List Vec) (r : ℕ)
    (hr : 1 ≤ r) (hrn : r ≤ data.length) :
    ((hierarchical_chronological_clustering data r).2).sum = data.length ∧
    ∀ w ∈ (hierarchical_chronological_clustering data r).2, 0 < w := by
  have hchrono := chrono_finalClusters data r hr
  constructor
  · have hlen := congrArg List.length hchrono.1
    simp only [List.length_flatten, List.length_range] at hlen
    simpa [hierarchical_chronological_clustering] using hlen
  · intro w hw
    simp only [hierarchical_chronological_clustering, List.mem_map] at hw
    obtain ⟨c, hcs, rfl⟩ := hw
    exact List.length_pos.mpr (hchrono.2 c hcs)

/-- Witness for `weight_conservation`: two periods reduced to one
cluster of weight two. -/
theorem weight_conservation_witness :
    (1 ≤ 1 ∧ 1 ≤ ([[(0 : ℚ)], [1]] : List Vec).length) ∧
    ((hierarchical_chronological_clustering [[(0 : ℚ)], [1]] 1).2).sum = 2 ∧
    ∀ w ∈ (hierarchical_chronological_clustering [[(0 : ℚ)], [1]] 1).2, 0 < w := by
  refine ⟨⟨by norm_num, by norm_num⟩, ?_⟩
  simpa using weight_conservation [[(0 : ℚ)], [1]] 1 (by norm_num) (by norm_num)

/-- C2: for every input matrix of `n` period vectors (`n ≥ 1`) and every
`target_count` with `1 ≤ target_count ≤ n`, the function returns exactly
`target_count` centroids and `target_count` weights. -/
theorem output_cardinality (data : List Vec) (r : ℕ)
    (hr : 1 ≤ r) (hrn : r ≤ data.length) :
    (hierarchical_chronological_clustering data r).1.length = r ∧
    (hierarchical_chronological_clustering data r).2.length = r := by
  have hlen := finalClusters_length data r hr hrn
  constructor <;> simpa [hierarchical_chronological_clustering]

/-- Witness for `output_cardinality`: three periods reduced to two. -/
theorem output_cardinality_witness :
    (1 ≤ 2 ∧ 2 ≤ ([[(0 : ℚ)], [1], [5]] : List Vec).length) ∧
    (hierarchical_chronological_clustering [[(0 : ℚ)], [1], [5]] 2).1.length = 2 ∧
    (hierarchical_chronological_clustering [[(0 : ℚ)], [1], [5]] 2).2.length = 2 :=
  ⟨⟨by norm_num, by norm_num⟩,
    output_cardinality [[(0 : ℚ)], [1], [5]] 2 (by norm_num) (by norm_num)⟩

/-- C3: the cluster sequence is at every point of the merge loop a
partition of the index range `0 .. n-1` into non-empty contiguous runs
in strictly increasing chronological order (no gaps, no overlaps):
the initial sequence satisfies the invariant, every loop step preserves
it and only ever combines two chronologically adjacent clusters, the
output satisfies it, and under the invariant cluster `k` is exactly the
contiguous run starting where the previous clusters end. -/
theorem chronological_partition_invariant (data : List Vec) (r : ℕ) (hr : 1 ≤ r) :
    Chrono data.length (initClusters data.length) ∧
    (∀ cs : List Cluster, 2 ≤ cs.length → Chrono data.length cs →
      Chrono data.length (mergeStep data cs) ∧
      ∃ i, i + 1 < cs.length ∧
        mergeStep data cs =
          (cs.set i (cs.getD i [] ++ cs.getD (i + 1) [])).eraseIdx (i + 1)) ∧
    Chrono data.length (finalClusters data r) ∧
    (∀ cs : List Cluster, Chrono data.length cs → ∀ k, k < cs.length →
      cs.getD k [] ≠ [] ∧
      cs.getD k [] =
        List.range' ((cs.take k).flatten.length) (cs.getD k []).length) := by
  refine ⟨chrono_init data.length, ?_, chrono_finalClusters data r hr, ?_⟩
  · intro cs h2 hc
    obtain ⟨i, hsm, hi, -, -⟩ := scanMin_spec data cs h2
    exact ⟨chrono_mergeStep data data.length cs h2 hc,
      ⟨i, hi, mergeStep_of_some data cs i hsm⟩⟩
  · intro cs hc k hk
    constructor
    · have hmem : cs.getD k [] ∈ cs := by
        rw [getD_of_lt _ _ _ hk]
        exact List.getElem_mem _
      exact hc.2 _ hmem
    · have h := flatten_range'_chunks cs 0 data.length
        (by rw [hc.1, List.range_eq_range']) k hk
      simpa using h

/-- Witness for `chronological_partition_invariant` at two periods and
target one. -/
theorem chronological_partition_invariant_witness :
    1 ≤ 1 ∧
    (Chrono 2 (initClusters 2) ∧
      (∀ cs : List Cluster, 2 ≤ cs.length → Chrono 2 cs →
        Chrono 2 (mergeStep [[(0 : ℚ)], [1]] cs) ∧
        ∃ i, i + 1 < cs.length ∧
          mergeStep [[(0 : ℚ)], [1]] cs =
            (cs.set i (cs.getD i [] ++ cs.getD (i + 1) [])).eraseIdx (i + 1)) ∧
      Chrono 2 (finalClusters [[(0 : ℚ)], [1]] 1) ∧
      (∀ cs : List Cluster, Chrono 2 cs → ∀ k, k < cs.length →
        cs.getD k [] ≠ [] ∧
        cs.getD k [] =
          List.range' ((cs.take k).flatten.length) (cs.getD k []).length)) :=
  ⟨by norm_num, chronological_partition_invariant [[(0 : ℚ)], [1]] 1 (by norm_num)⟩

/-- C4: in every iteration of the merge loop the merged pair is the
chronologically adjacent pair of minimal Ward dissimilarity, and among
several minimizing pairs the one with the lowest starting index is
taken (the left-to-right scan replaces the stored minimum only on a
strictly smaller score). -/
theorem merge_selects_min_adjacent_pair (data : List Vec) (cs : List Cluster)
    (h : 2 ≤ cs.length) :
    ∃ i, scanMin data cs = some i ∧ i + 1 < cs.length ∧
      (∀ j, j + 1 < cs.length → adjDiss data cs i ≤ adjDiss data cs j) ∧
      (∀ j, j < i → adjDiss data cs i < adjDiss data cs j) ∧
      mergeStep data cs =
        (cs.set i (cs.getD i [] ++ cs.getD (i + 1) [])).eraseIdx (i + 1) := by
  obtain ⟨i, hsm, hi, hmin, hfirst⟩ := scanMin_spec data cs h
  exact ⟨i, hsm, hi, hmin, hfirst, mergeStep_of_some data cs i hsm⟩

/-- Witness for `merge_selects_min_adjacent_pair` on the four-period
example sequence. -/
theorem merge_selects_min_adjacent_pair_witness :
    2 ≤ (initClusters 4).length ∧
    ∃ i, scanMin [[(0 : ℚ)], [1], [2], [10]] (initClusters 4) = some i ∧
      i + 1 < (initClusters 4).length ∧
      (∀ j, j + 1 < (initClusters 4).length →
        adjDiss [[(0 : ℚ)], [1], [2], [10]] (initClusters 4) i ≤
          adjDiss [[(0 : ℚ)], [1], [2], [10]] (initClusters 4) j) ∧
      (∀ j, j < i →
        adjDiss [[(0 : ℚ)], [1], [2], [10]] (initClusters 4) i <
          adjDiss [[(0 : ℚ)], [1], [2], [10]] (initClusters 4) j) ∧
      mergeStep [[(0 : ℚ)], [1], [2], [10]] (initClusters 4) =
        ((initClusters 4).set i
            ((initClusters 4).getD i [] ++ (initClusters 4).getD (i + 1) [])).eraseIdx
          (i + 1) :=
  ⟨by norm_num [initClusters],
    merge_selects_min_adjacent_pair [[(0 : ℚ)], [1], [2], [10]] (initClusters 4)
      (by norm_num [initClusters])⟩

/-- C5: every output centroid is the exact componentwise arithmetic mean
of the original member rows of its cluster (never a re-averaged
intermediate); in particular with `target_count = len(periods)` the
centroids are the input rows and with `target_count = 1` the single
centroid is the overall mean. -/
theorem centroids_are_true_means (data : List Vec) (r Dim : ℕ)
    (hr : 1 ≤ r) (hrn : r ≤ data.length)
    (hD : ∀ row ∈ data, row.length = Dim) :
    (∀ c ∈ finalClusters data r, compute_centroid data c = specMean Dim data c) ∧
    (hierarchical_chronological_clustering data r).1 =
      (finalClusters data r).map (specMean Dim data) ∧
    (r = data.length → (hierarchical_chronological_clustering data r).1 = data) ∧
    (r = 1 → (hierarchical_chronological_clustering data r).1 =
      [specMean Dim data (List.range data.length)]) := by
  have hchrono := chrono_finalClusters data r hr
  have hmain : ∀ c ∈ finalClusters data r,
      compute_centroid data c = specMean Dim data c := by
    intro c hcs
    exact compute_centroid_eq_specMean Dim data c (hchrono.2 c hcs)
      (chrono_mem_lt data.length _ hchrono c hcs) hD
  refine ⟨hmain, ?_, ?_, ?_⟩
  · simp only [hierarchical_chronological_clustering]
    exact List.map_congr_left hmain
  · intro hreq
    rw [hcc_of_le data r (by omega)]
  · intro hreq
    subst hreq
    have hlen1 : (finalClusters data 1).length = 1 :=
      finalClusters_length data 1 hr hrn
    obtain ⟨c, hc⟩ := List.length_eq_one.mp hlen1
    have hcr : c = List.range data.length := by
      have hfl := hchrono.1
      rw [hc] at hfl
      simpa using hfl
    simp only [hierarchical_chronological_clustering, hc, List.map_cons, List.map_nil]
    rw [hmain c (by rw [hc]; simp), hcr]

/-- Witness for `centroids_are_true_means` at one two-dimensional
period and target one. -/
theorem centroids_are_true_means_witness :
    (1 ≤ 1 ∧ 1 ≤ ([[(3 : ℚ), 4]] : List Vec).length ∧
      ∀ row ∈ ([[(3 : ℚ), 4]] : List Vec), row.length = 2) ∧
    ((∀ c ∈ finalClusters [[(3 : ℚ), 4]] 1,
        compute_centroid [[(3 : ℚ), 4]] c = specMean 2 [[(3 : ℚ), 4]] c) ∧
      (hierarchical_chronological_clustering [[(3 : ℚ), 4]] 1).1 =
        (finalClusters [[(3 : ℚ), 4]] 1).map (specMean 2 [[(3 : ℚ), 4]]) ∧
      (1 = ([[(3 : ℚ), 4]] : List Vec).length →
        (hierarchical_chronological_clustering [[(3 : ℚ), 4]] 1).1 = [[(3 : ℚ), 4]]) ∧
      (1 = 1 → (hierarchical_chronological_clustering [[(3 : ℚ), 4]] 1).1 =
        [specMean 2 [[(3 : ℚ), 4]] (List.range ([[(3 : ℚ), 4]] : List Vec).length)])) :=
  ⟨⟨by norm_num, by norm_num, by norm_num⟩,
    centroids_are_true_means [[(3 : ℚ), 4]] 1 2 (by norm_num) (by norm_num)
      (by norm_num)⟩

/-- C6 (counterexample): on the periods `[[0],[1],[2],[10]]` the claim
asserts that the adjacent singleton pair `{1},{2}` has Ward score `8`
and that the minimum is attained only at the leftmost pair; in fact its
score is `2*1*1/(1+1) * (1-2)^2 = 1`, equal to the score of `{0},{1}`,
so the minimum is attained at the two leftmost pairs simultaneously. -/
theorem concrete_scenario_counterexample :
    compute_dissimilarity [[(0 : ℚ)], [1], [2], [10]] [1] [2] = 1 ∧
    ¬ compute_dissimilarity [[(0 : ℚ)], [1], [2], [10]] [1] [2] = 8 ∧
    adjDiss [[(0 : ℚ)], [1], [2], [10]] (initClusters 4) 1 =
      adjDiss [[(0 : ℚ)], [1], [2], [10]] (initClusters 4) 0 := by
  norm_num [compute_dissimilarity, compute_centroid, sqDist, vecSum, vecAdd,
    adjDiss, initClusters, List.range_succ]

/-- C6 (amended): on input periods `[[0],[1],[2],[10]]` with
`target_count = 2` the adjacent Ward scores are `1, 1, 64`; the minimum
is attained at the two leftmost pairs and the deterministic tie-break
merges the leftmost, so the first merge combines periods 0 and 1, and
the final result is two clusters with weights `[3, 1]` summing to 4. -/
theorem concrete_scenario_amended :
    mergeStep [[(0 : ℚ)], [1], [2], [10]] (initClusters 4) = [[0, 1], [2], [3]] ∧
    adjDiss [[(0 : ℚ)], [1], [2], [10]] (initClusters 4) 0 = 1 ∧
    adjDiss [[(0 : ℚ)], [1], [2], [10]] (initClusters 4) 1 = 1 ∧
    adjDiss [[(0 : ℚ)], [1], [2], [10]] (initClusters 4) 2 = 64 ∧
    hierarchical_chronological_clustering [[(0 : ℚ)], [1], [2], [10]] 2 =
      ([[1], [10]], [3, 1]) ∧
    ((hierarchical_chronological_clustering [[(0 : ℚ)], [1], [2], [10]] 2).2).sum = 4 := by
  norm_num [hierarchical_chronological_clustering, finalClusters, mergeLoop, mergeStep,
    scanMin, scanStep, adjDiss, compute_dissimilarity, compute_centroid, sqDist, vecSum,
    vecAdd, initClusters, List.range_succ]

/-- C7 (counterexample): with one period and `target_count = 2` the
specified contract fails with `InvalidArgument`, but the source
function performs no validation: it returns a complete, ordinary result. -/
theorem no_invalid_argument_counterexample :
    hierarchical_chronological_clustering [[(0 : ℚ)]] 2 = ([[0]], [1]) ∧
    reduce_specContract [[(0 : ℚ)]] 2 = Except.error ClusterError.invalidArgument := by
  constructor
  · simpa using hcc_of_le [[(0 : ℚ)]] 2 (by norm_num)
  · norm_num [reduce_specContract]

/-- C7 (amended): the source never validates `target_count` and never
fails: outside the valid range it still returns a complete result,
namely the empty output for `target_count = 0` and the untouched
singleton decomposition for `target_count > len(periods)`. -/
theorem out_of_range_target_no_failure (data : List Vec) (r : ℕ)
    (h : ¬(1 ≤ r ∧ r ≤ data.length)) :
    (r = 0 ∧ hierarchical_chronological_clustering data r = ([], [])) ∨
    (data.length < r ∧
      hierarchical_chronological_clustering data r =
        (data, List.replicate data.length 1)) := by
  rcases Nat.eq_zero_or_pos r with h0 | h0
  · subst h0
    exact Or.inl ⟨rfl, hcc_zero data⟩
  · have hgt : data.length < r := by omega
    exact Or.inr ⟨hgt, hcc_of_le data r (le_of_lt hgt)⟩

/-- Witness for `out_of_range_target_no_failure` at one period and
`target_count = 2`. -/
theorem out_of_range_target_no_failure_witness :
    ¬(1 ≤ 2 ∧ 2 ≤ ([[(0 : ℚ)]] : List Vec).length) ∧
    ((2 = 0 ∧ hierarchical_chronological_clustering [[(0 : ℚ)]] 2 = ([], [])) ∨
      (([[(0 : ℚ)]] : List Vec).length < 2 ∧
        hierarchical_chronological_clustering [[(0 : ℚ)]] 2 =
          ([[(0 : ℚ)]], List.replicate ([[(0 : ℚ)]] : List Vec).length 1))) :=
  ⟨by norm_num, out_of_range_target_no_failure [[(0 : ℚ)]] 2 (by norm_num)⟩

/-- C9: for `n ≥ 1` periods and any `n_reduced ≥ n` the function raises
no error and returns the `n` singleton clusters: the centroids are the
input rows in order and every weight is 1. -/
theorem target_at_least_n_singletons (data : List Vec) (r : ℕ)
    (hn : 1 ≤ data.length) (hr : data.length ≤ r) :
    hierarchical_chronological_clustering data r =
      (data, List.replicate data.length 1) :=
  hcc_of_le data r hr

/-- Witness for `target_at_least_n_singletons`: two periods,
`n_reduced = 5`. -/
theorem target_at_least_n_singletons_witness :
    (1 ≤ ([[(2 : ℚ)], [3]] : List Vec).length ∧
      ([[(2 : ℚ)], [3]] : List Vec).length ≤ 5) ∧
    hierarchical_chronological_clustering [[(2 : ℚ)], [3]] 5 =
      ([[(2 : ℚ)], [3]], [1, 1]) := by
  refine ⟨⟨by norm_num, by norm_num⟩, ?_⟩
  simpa using target_at_least_n_singletons [[(2 : ℚ)], [3]] 5 (by norm_num) (by norm_num)

/-- C10: for `n ≥ 1` periods, `n_reduced = 0` returns an empty output
(zero clusters, weights summing to 0) rather than failing: once a
single cluster remains the scan finds no adjacent pair, and under the
sentinel merge index the sole cluster is merged with itself and then
deleted, emptying the sequence. -/
theorem target_zero_empty_output (data : List Vec) (hn : 1 ≤ data.length) :
    hierarchical_chronological_clustering data 0 = ([], []) ∧
    ((hierarchical_chronological_clustering data 0).2).sum = 0 ∧
    ∀ c : Cluster, mergeStep data [c] = [] := by
  refine ⟨hcc_zero data, by simp [hcc_zero data], ?_⟩
  intro c
  simp [mergeStep, scanMin_none data [c] (by simp)]

/-- Witness for `target_zero_empty_output` at one period. -/
theorem target_zero_empty_output_witness :
    1 ≤ ([[(5 : ℚ)]] : List Vec).length ∧
    (hierarchical_chronological_clustering [[(5 : ℚ)]] 0 = ([], []) ∧
      ((hierarchical_chronological_clustering [[(5 : ℚ)]] 0).2).sum = 0 ∧
      ∀ c : Cluster, mergeStep [[(5 : ℚ)]] [c] = []) :=
  ⟨by norm_num, target_zero_empty_output [[(5 : ℚ)]] (by norm_num)⟩

end TSC
